import Mathlib

/-!
Verification development for the photo-analyzer pipeline.

Shallow embedding of the repository's core modules:
- `analysis.py`  : blur/centering categorization and per-image analysis;
- `db.py`        : the SQLite-backed analysis store (rows modelled as a list,
                    the synthetic `id` primary key as a `Nat`, SQLite's rowid
                    allocation as a `nextId` counter);
- `analyze_photos.py` : the `process_images` orchestrator and `main`'s exit code.

Python floats are modelled as exact rationals (`ℚ`); `np.sqrt`, an external
floating-point primitive, is modelled as an abstract function parameter
`sqrtFn : ℚ → ℚ` (it is never invoked on the code paths the claims examine).
The external vision primitives (`cv2.imread`, `cv2.Laplacian` variance,
cascade `detectMultiScale`) are modelled by their outputs, carried in the
`Image` structure: a decoded image is a width, a height, the Laplacian
variance the sharpness primitive returns, and the two detection box lists.
-/

/-! ## analysis.py — thresholds and scalar functions -/

def BLUR_THRESHOLD_SHARP : ℚ := 150
def BLUR_THRESHOLD_SOFT : ℚ := 50
def CENTER_THRESHOLD_WELL : ℚ := 15/100
def CENTER_THRESHOLD_SOMEWHAT : ℚ := 35/100

/-- `categorize_blur` from analysis.py. -/
def categorize_blur (blur_score : ℚ) : String :=
  if blur_score ≥ BLUR_THRESHOLD_SHARP then "sharp"
  else if blur_score ≥ BLUR_THRESHOLD_SOFT then "soft"
  else "blurry"

/-- `categorize_centering` from analysis.py. -/
def categorize_centering (center_score : ℚ) : String :=
  if center_score ≤ CENTER_THRESHOLD_WELL then "well_centered"
  else if center_score ≤ CENTER_THRESHOLD_SOMEWHAT then "somewhat_centered"
  else "off_center"

/-- Python's `round` on a value halfway between two integers picks the even
one (banker's rounding); this is the integer-valued core of `round(x, n)`. -/
def roundHalfEven (q : ℚ) : ℤ :=
  let f := ⌊q⌋
  if q - f < 1/2 then f
  else if q - f > 1/2 then f + 1
  else if f % 2 = 0 then f else f + 1

/-- Python's `round(q, ndigits)` over exact rationals. -/
def pyround (q : ℚ) (ndigits : ℕ) : ℚ :=
  (roundHalfEven (q * 10 ^ ndigits) : ℚ) / 10 ^ ndigits

/-- A detection bounding box `(x, y, w, h)` as returned by
`detectMultiScale` (pixel coordinates). -/
structure DetectionBox where
  x : ℤ
  y : ℤ
  w : ℤ
  h : ℤ
deriving DecidableEq, Repr

/-- `get_largest_detection` from analysis.py: Python's `max(detections,
key=lambda d: d[2] * d[3])` keeps the first element of maximal area. -/
def get_largest_detection (detections : List DetectionBox) : Option DetectionBox :=
  match detections with
  | [] => none
  | b :: rest =>
      some (rest.foldl (fun best d => if d.w * d.h > best.w * best.h then d else best) b)

/-- `calculate_center_score` from analysis.py; `np.sqrt` is the abstract
floating-point primitive `sqrtFn`. -/
def calculate_center_score (sqrtFn : ℚ → ℚ) (bbox : DetectionBox)
    (image_width image_height : ℕ) : ℚ :=
  let bbox_center_x : ℚ := (bbox.x : ℚ) + (bbox.w : ℚ) / 2
  let bbox_center_y : ℚ := (bbox.y : ℚ) + (bbox.h : ℚ) / 2
  let img_center_x : ℚ := (image_width : ℚ) / 2
  let img_center_y : ℚ := (image_height : ℚ) / 2
  let dx := (bbox_center_x - img_center_x) / (image_width : ℚ)
  let dy := (bbox_center_y - img_center_y) / (image_height : ℚ)
  sqrtFn (dx ^ 2 + dy ^ 2)

/-- A successfully decoded image, carrying the outputs of the external
vision primitives: dimensions from `imread`, the Laplacian variance from
`calculate_blur_score`, and the box lists from `detect_faces` /
`detect_cat_faces`. -/
structure Image where
  width : ℕ
  height : ℕ
  blurRaw : ℚ
  faces : List DetectionBox
  cats : List DetectionBox
deriving DecidableEq, Repr

/-- The dictionary `analyze_image` returns. -/
structure AnalysisOut where
  width : ℕ
  height : ℕ
  blur_score : ℚ
  blur_category : String
  has_person : Bool
  has_pet : Bool
  center_score : ℚ
  center_category : String
deriving DecidableEq, Repr

/-- The raw (unrounded) centering score `analyze_image` computes: the score
of the largest detection among faces then cats, or `0.0` when there is no
detection. -/
def center_raw (sqrtFn : ℚ → ℚ) (img : Image) : ℚ :=
  match get_largest_detection (img.faces ++ img.cats) with
  | some largest => calculate_center_score sqrtFn largest img.width img.height
  | none => 0

/-- `analyze_image` from analysis.py, on an already-decoded image (decode
failure is handled at the call site in `processItem`). -/
def analyze_image (sqrtFn : ℚ → ℚ) (img : Image) : AnalysisOut :=
  let blur_score := img.blurRaw
  let blur_category := categorize_blur blur_score
  let has_person := !img.faces.isEmpty
  let has_pet := !img.cats.isEmpty
  let center_score := center_raw sqrtFn img
  let center_category := categorize_centering center_score
  { width := img.width
    height := img.height
    blur_score := pyround blur_score 2
    blur_category := blur_category
    has_person := has_person
    has_pet := has_pet
    center_score := pyround center_score 4
    center_category := center_category }

/-! ## db.py — the analysis store -/

/-- One row of the `photo_analysis` table. -/
structure Row where
  id : ℕ
  root : String
  path : String
  size_bytes : ℤ
  mtime_ns : ℤ
  width : ℕ
  height : ℕ
  blur_score : ℚ
  blur_category : String
  has_person : ℤ
  has_pet : ℤ
  center_score : ℚ
  center_category : String
  analyzed_at : String
deriving DecidableEq, Repr

/-- The record dictionary passed to `upsert_analysis` (all columns except
the synthetic `id`). -/
structure AnalysisData where
  root : String
  path : String
  size_bytes : ℤ
  mtime_ns : ℤ
  width : ℕ
  height : ℕ
  blur_score : ℚ
  blur_category : String
  has_person : ℤ
  has_pet : ℤ
  center_score : ℚ
  center_category : String
  analyzed_at : String
deriving DecidableEq, Repr

/-- Insert a record as a fresh row with the given id. -/
def AnalysisData.toRow (d : AnalysisData) (id : ℕ) : Row :=
  { id := id
    root := d.root
    path := d.path
    size_bytes := d.size_bytes
    mtime_ns := d.mtime_ns
    width := d.width
    height := d.height
    blur_score := d.blur_score
    blur_category := d.blur_category
    has_person := d.has_person
    has_pet := d.has_pet
    center_score := d.center_score
    center_category := d.center_category
    analyzed_at := d.analyzed_at }

/-- The non-identity columns of a row (for field-for-field comparisons). -/
def Row.data (r : Row) : AnalysisData :=
  { root := r.root
    path := r.path
    size_bytes := r.size_bytes
    mtime_ns := r.mtime_ns
    width := r.width
    height := r.height
    blur_score := r.blur_score
    blur_category := r.blur_category
    has_person := r.has_person
    has_pet := r.has_pet
    center_score := r.center_score
    center_category := r.center_category
    analyzed_at := r.analyzed_at }

/-- The database state: the rows of `photo_analysis` in rowid order, plus
SQLite's next fresh rowid. -/
structure DB where
  rows : List Row
  nextId : ℕ
deriving DecidableEq, Repr

/-- `WHERE root = ? AND path = ?`. -/
def rowMatchesKey (root path : String) (r : Row) : Bool :=
  r.root == root && r.path == path

/-- `WHERE root = ? AND path = ? AND size_bytes = ? AND mtime_ns = ?`. -/
def rowMatchesFp (root path : String) (size_bytes mtime_ns : ℤ) (r : Row) : Bool :=
  r.root == root && r.path == path && r.size_bytes == size_bytes && r.mtime_ns == mtime_ns

/-- `get_cached_analysis` from db.py. -/
def get_cached_analysis (db : DB) (root path : String) (size_bytes mtime_ns : ℤ) :
    Option Row :=
  db.rows.find? (rowMatchesFp root path size_bytes mtime_ns)

/-- The `UPDATE photo_analysis SET ... WHERE id = ?` of `upsert_analysis`:
every column except `root`, `path` and `id` is overwritten. -/
def updateRow (d : AnalysisData) (r : Row) : Row :=
  { r with
    size_bytes := d.size_bytes
    mtime_ns := d.mtime_ns
    width := d.width
    height := d.height
    blur_score := d.blur_score
    blur_category := d.blur_category
    has_person := d.has_person
    has_pet := d.has_pet
    center_score := d.center_score
    center_category := d.center_category
    analyzed_at := d.analyzed_at }

/-- `upsert_analysis` from db.py: look for an existing `(root, path)` row;
update it in place by id if found, otherwise insert a fresh row. -/
def upsert_analysis (db : DB) (d : AnalysisData) : DB :=
  match db.rows.find? (rowMatchesKey d.root d.path) with
  | some existing =>
      { db with rows := db.rows.map (fun r => if r.id == existing.id then updateRow d r else r) }
  | none =>
      { rows := db.rows ++ [d.toRow db.nextId], nextId := db.nextId + 1 }

/-- `get_all_analyses_for_root` from db.py: `SELECT * ... WHERE root = ?
ORDER BY path`. -/
def get_all_analyses_for_root (db : DB) (root : String) : List Row :=
  (db.rows.filter (fun r => r.root == root)).mergeSort (fun a b => a.path ≤ b.path)

/-- The `db_paths - existing_paths` set difference computed by
`delete_missing_files`: the distinct stored paths for the root
(`db_paths`, a Python set, modelled as a deduplicated list) minus the
paths seen by the scan. -/
def pathsToDelete (db : DB) (root : String) (existing_paths : List String) : List String :=
  (((db.rows.filter (fun r => r.root == root)).map (fun r => r.path)).dedup).filter
    (fun p => !(existing_paths.contains p))

/-- `delete_missing_files` from db.py: compute the set of stored paths for
the root, subtract the paths seen by the scan, delete those rows, and
return the size of the deleted path set. -/
def delete_missing_files (db : DB) (root : String) (existing_paths : List String) :
    ℕ × DB :=
  let paths_to_delete := pathsToDelete db root existing_paths
  let rows' := db.rows.filter (fun r => !(r.root == root && paths_to_delete.contains r.path))
  (paths_to_delete.length, { db with rows := rows' })

/-! ## analyze_photos.py — the pipeline orchestrator -/

/-- One entry yielded by `find_images`, together with what the filesystem
and decoder would do for it this run: `stat = none` models an `os.stat`
failure, `img = none` models `cv2.imread` returning `None` (undecodable). -/
structure ScanItem where
  rel_path : String
  stat : Option (ℤ × ℤ)
  img : Option Image
deriving DecidableEq, Repr

/-- The `stats` dictionary of `process_images`. -/
structure Stats where
  total : ℕ
  analyzed : ℕ
  cached : ℕ
  errors : ℕ
  deleted : ℕ
deriving DecidableEq, Repr

/-- The loop state of `process_images`: counters, the store, and the
`existing_paths` set of relative paths seen so far this run. -/
structure RunState where
  stats : Stats
  db : DB
  seen : List String

/-- The body of the per-image loop in `process_images`: record the relative
path as seen, then stat, consult the cache (unless forcing), analyze, and
upsert; per-item failures increment `errors` and move on. -/
def processItem (root now : String) (force : Bool) (sqrtFn : ℚ → ℚ)
    (s : RunState) (item : ScanItem) : RunState :=
  let seen' := s.seen ++ [item.rel_path]
  match item.stat with
  | none =>
      { s with seen := seen', stats := { s.stats with errors := s.stats.errors + 1 } }
  | some (size_bytes, mtime_ns) =>
      if !force && (get_cached_analysis s.db root item.rel_path size_bytes mtime_ns).isSome then
        { s with seen := seen', stats := { s.stats with cached := s.stats.cached + 1 } }
      else
        match item.img with
        | none =>
            { s with seen := seen', stats := { s.stats with errors := s.stats.errors + 1 } }
        | some image =>
            let a := analyze_image sqrtFn image
            let d : AnalysisData :=
              { root := root
                path := item.rel_path
                size_bytes := size_bytes
                mtime_ns := mtime_ns
                width := a.width
                height := a.height
                blur_score := a.blur_score
                blur_category := a.blur_category
                has_person := if a.has_person then 1 else 0
                has_pet := if a.has_pet then 1 else 0
                center_score := a.center_score
                center_category := a.center_category
                analyzed_at := now }
            { seen := seen'
              db := upsert_analysis s.db d
              stats := { s.stats with analyzed := s.stats.analyzed + 1 } }

/-- `process_images` from analyze_photos.py: `root` is the resolved input
directory, `now` the `datetime.now(...).isoformat()` timestamp, `items` the
scan result. Returns the stats dictionary and the final store state. An
empty scan returns the all-zero stats immediately without touching the
store; otherwise the per-image loop runs and then `delete_missing_files`
reconciles the store against the seen set. -/
def process_images (root now : String) (force : Bool) (sqrtFn : ℚ → ℚ)
    (items : List ScanItem) (db0 : DB) : Stats × DB :=
  if items.length = 0 then
    ({ total := 0, analyzed := 0, cached := 0, errors := 0, deleted := 0 }, db0)
  else
    let s0 : RunState :=
      { stats := { total := items.length, analyzed := 0, cached := 0, errors := 0, deleted := 0 }
        db := db0
        seen := [] }
    let s1 := items.foldl (processItem root now force sqrtFn) s0
    let rec1 := delete_missing_files s1.db root s1.seen
    ({ s1.stats with deleted := rec1.1 }, rec1.2)

/-- The exit code computed by `main`: `0 if stats['errors'] == 0 else 1`. -/
def run_outcome (stats : Stats) : ℤ :=
  if stats.errors = 0 then 0 else 1

/-! ## Store invariants and derived notions -/

/-- The stored relative paths for a root (`SELECT path ... WHERE root = ?`). -/
def pathsForRoot (db : DB) (root : String) : List String :=
  (db.rows.filter (fun r => r.root == root)).map (fun r => r.path)

/-- A stored row for `(root, path)` whose fingerprint matches exactly —
what a successful `get_cached_analysis` requires. -/
def MatchRow (db : DB) (root path : String) (size_bytes mtime_ns : ℤ) : Prop :=
  ∃ r ∈ db.rows, r.root = root ∧ r.path = path ∧
    r.size_bytes = size_bytes ∧ r.mtime_ns = mtime_ns

/-- Well-formedness that SQLite guarantees for the `id INTEGER PRIMARY KEY`
column: ids are pairwise distinct and the next allocated rowid is fresh. -/
def WF (db : DB) : Prop :=
  (db.rows.map Row.id).Nodup ∧ ∀ r ∈ db.rows, r.id < db.nextId

/-- The store invariant of the spec: at most one record per
`(root, relative path)` pair. -/
def AtMostOnePerKey (db : DB) : Prop :=
  db.rows.Pairwise (fun a b => ¬(a.root = b.root ∧ a.path = b.path))

/-! ## Concrete fixtures used by witnesses and counterexamples -/

def exRow : Row :=
  { id := 0, root := "/r", path := "a.jpg", size_bytes := 5, mtime_ns := 7,
    width := 10, height := 10, blur_score := 200, blur_category := "sharp",
    has_person := 0, has_pet := 0, center_score := 0,
    center_category := "well_centered", analyzed_at := "t0" }

def exRowP : Row :=
  { id := 1, root := "/r", path := "p.jpg", size_bytes := 3, mtime_ns := 4,
    width := 10, height := 10, blur_score := 80, blur_category := "soft",
    has_person := 0, has_pet := 0, center_score := 0,
    center_category := "well_centered", analyzed_at := "t0" }

def exImg : Image := { width := 10, height := 10, blurRaw := 200, faces := [], cats := [] }

def exImgNearSharp : Image :=
  { width := 10, height := 10, blurRaw := 37499/250, faces := [], cats := [] }

def exItemGood : ScanItem := { rel_path := "a.jpg", stat := some (6, 8), img := some exImg }

def exItemBad : ScanItem := { rel_path := "bad.jpg", stat := some (1, 1), img := none }

def exItemStale : ScanItem := { rel_path := "a.jpg", stat := some (6, 8), img := none }

def exDB : DB := { rows := [exRow], nextId := 1 }

def exDB2 : DB := { rows := [exRow, exRowP], nextId := 2 }

def exSqrt : ℚ → ℚ := fun q => q

/-! ## Helper lemmas: blur bands -/

lemma blur_sharp_iff (s : ℚ) : categorize_blur s = "sharp" ↔ 150 ≤ s := by
  unfold categorize_blur BLUR_THRESHOLD_SHARP BLUR_THRESHOLD_SOFT
  split_ifs with h1 h2
  · exact iff_of_true rfl h1
  · exact iff_of_false (by decide) h1
  · exact iff_of_false (by decide) h1

lemma blur_soft_iff (s : ℚ) : categorize_blur s = "soft" ↔ 50 ≤ s ∧ s < 150 := by
  unfold categorize_blur BLUR_THRESHOLD_SHARP BLUR_THRESHOLD_SOFT
  split_ifs with h1 h2
  · exact iff_of_false (by decide) (fun h => absurd h.2 (not_lt.mpr h1))
  · exact iff_of_true rfl ⟨h2, not_le.mp h1⟩
  · exact iff_of_false (by decide) (fun h => h2 h.1)

lemma blur_blurry_iff (s : ℚ) : categorize_blur s = "blurry" ↔ s < 50 := by
  unfold categorize_blur BLUR_THRESHOLD_SHARP BLUR_THRESHOLD_SOFT
  split_ifs with h1 h2
  · exact iff_of_false (by decide) (not_lt.mpr (le_trans (by norm_num) h1))
  · exact iff_of_false (by decide) (not_lt.mpr h2)
  · exact iff_of_true rfl (not_le.mp h2)

/-- C6: `categorize_blur` maps a score to "sharp" iff it is at least 150,
to "soft" iff it is at least 50 and below 150, and to "blurry" iff it is
below 50; in particular 150.0 gives "sharp", 149.99 gives "soft", 50.0
gives "soft", and 49.99 gives "blurry". -/
theorem C6_blur_categorization_bands :
    (∀ s : ℚ, (categorize_blur s = "sharp" ↔ s ≥ 150)
      ∧ (categorize_blur s = "soft" ↔ 50 ≤ s ∧ s < 150)
      ∧ (categorize_blur s = "blurry" ↔ s < 50))
    ∧ categorize_blur 150 = "sharp"
    ∧ categorize_blur (14999/100) = "soft"
    ∧ categorize_blur 50 = "soft"
    ∧ categorize_blur (4999/100) = "blurry" := by
  refine ⟨fun s => ⟨blur_sharp_iff s, blur_soft_iff s, blur_blurry_iff s⟩, ?_, ?_, ?_, ?_⟩
  · exact (blur_sharp_iff 150).mpr (by norm_num)
  · exact (blur_soft_iff (14999/100)).mpr (by norm_num)
  · exact (blur_soft_iff 50).mpr (by norm_num)
  · exact (blur_blurry_iff (4999/100)).mpr (by norm_num)

/-! ## C7: no-detection centering convention -/

lemma pyround_zero (n : ℕ) : pyround 0 n = 0 := by
  unfold pyround roundHalfEven
  norm_num

/-- C7: an image in which zero faces and zero cat-faces were detected gets
`center_score == 0.0` and `center_category == "well_centered"` from
`analyze_image`. -/
theorem C7_no_detection_convention (sqrtFn : ℚ → ℚ) (img : Image)
    (hf : img.faces = []) (hc : img.cats = []) :
    (analyze_image sqrtFn img).center_score = 0
    ∧ (analyze_image sqrtFn img).center_category = "well_centered" := by
  have hcr : center_raw sqrtFn img = 0 := by
    unfold center_raw
    rw [hf, hc]
    rfl
  constructor
  · show pyround (center_raw sqrtFn img) 4 = 0
    rw [hcr]; exact pyround_zero 4
  · show categorize_centering (center_raw sqrtFn img) = "well_centered"
    rw [hcr]
    unfold categorize_centering CENTER_THRESHOLD_WELL CENTER_THRESHOLD_SOMEWHAT
    norm_num

/-- Witness for C7 at a concrete detection-free image. -/
theorem C7_witness :
    (analyze_image (fun q => q) ⟨1, 1, 0, [], []⟩).center_score = 0
    ∧ (analyze_image (fun q => q) ⟨1, 1, 0, [], []⟩).center_category = "well_centered" :=
  C7_no_detection_convention (fun q => q) ⟨1, 1, 0, [], []⟩ rfl rfl

/-! ## Helper lemmas: row predicates -/

lemma rowMatchesFp_iff (root path : String) (s m : ℤ) (r : Row) :
    rowMatchesFp root path s m r = true ↔
      r.root = root ∧ r.path = path ∧ r.size_bytes = s ∧ r.mtime_ns = m := by
  simp [rowMatchesFp, and_assoc]

lemma rowMatchesKey_iff (root path : String) (r : Row) :
    rowMatchesKey root path r = true ↔ r.root = root ∧ r.path = path := by
  simp [rowMatchesKey]

lemma updateRow_root (d : AnalysisData) (r : Row) : (updateRow d r).root = r.root := rfl

lemma updateRow_path (d : AnalysisData) (r : Row) : (updateRow d r).path = r.path := rfl

lemma updateRow_id (d : AnalysisData) (r : Row) : (updateRow d r).id = r.id := rfl

/-! ## C3: cache lookup validity -/

/-- C3: `get_cached_analysis` returns a stored record if and only if a
record for `(root, path)` with exactly the given size and mtime fingerprint
exists; any returned record is stored and matches all four key fields. -/
theorem C3_lookup_exact_fingerprint :
    ∀ (db : DB) (root path : String) (size_bytes mtime_ns : ℤ),
      ((∃ r, get_cached_analysis db root path size_bytes mtime_ns = some r) ↔
        ∃ r ∈ db.rows, r.root = root ∧ r.path = path ∧
          r.size_bytes = size_bytes ∧ r.mtime_ns = mtime_ns)
      ∧ (∀ r, get_cached_analysis db root path size_bytes mtime_ns = some r →
          r ∈ db.rows ∧ r.root = root ∧ r.path = path ∧
            r.size_bytes = size_bytes ∧ r.mtime_ns = mtime_ns) := by
  intro db root path s m
  constructor
  · constructor
    · rintro ⟨r, hr⟩
      refine ⟨r, List.mem_of_find?_eq_some hr, ?_⟩
      exact (rowMatchesFp_iff root path s m r).mp (List.find?_some hr)
    · rintro ⟨r, hmem, hfields⟩
      have : (db.rows.find? (rowMatchesFp root path s m)).isSome := by
        rw [List.find?_isSome]
        exact ⟨r, hmem, (rowMatchesFp_iff root path s m r).mpr hfields⟩
      rcases Option.isSome_iff_exists.mp this with ⟨r', hr'⟩
      exact ⟨r', hr'⟩
  · intro r hr
    refine ⟨List.mem_of_find?_eq_some hr, ?_⟩
    exact (rowMatchesFp_iff root path s m r).mp (List.find?_some hr)

/-- Witness for C3: in a one-row store, looking up the row's own
fingerprint returns it, and the returned record matches all key fields. -/
theorem C3_lookup_exact_fingerprint_witness :
    exRow ∈ exDB.rows ∧ exRow.root = "/r" ∧ exRow.path = "a.jpg" ∧
      exRow.size_bytes = 5 ∧ exRow.mtime_ns = 7 :=
  (C3_lookup_exact_fingerprint exDB "/r" "a.jpg" 5 7).2 exRow (by decide)

/-! ## C8: upsert/lookup round-trip -/

lemma not_fp_of_not_key (d : AnalysisData) (r : Row)
    (h : ¬ rowMatchesKey d.root d.path r = true) :
    ¬ rowMatchesFp d.root d.path d.size_bytes d.mtime_ns r = true := by
  intro hfp
  rcases (rowMatchesFp_iff _ _ _ _ r).mp hfp with ⟨h1, h2, _, _⟩
  exact h ((rowMatchesKey_iff _ _ r).mpr ⟨h1, h2⟩)

lemma roundtrip_find (rows : List Row) (n : ℕ) (d : AnalysisData) :
    ∃ r, (upsert_analysis ⟨rows, n⟩ d).rows.find?
        (rowMatchesFp d.root d.path d.size_bytes d.mtime_ns) = some r ∧ r.data = d := by
  induction rows with
  | nil =>
      refine ⟨d.toRow n, ?_, rfl⟩
      have hrows : (upsert_analysis ⟨[], n⟩ d).rows = [d.toRow n] := rfl
      rw [hrows]
      exact List.find?_cons_of_pos _ ((rowMatchesFp_iff _ _ _ _ _).mpr ⟨rfl, rfl, rfl, rfl⟩)
  | cons r rs ih =>
      by_cases hk : rowMatchesKey d.root d.path r = true
      · -- the head is the existing (root, path) row: updated in place
        obtain ⟨h1, h2⟩ := (rowMatchesKey_iff _ _ r).mp hk
        have hfind : (r :: rs).find? (rowMatchesKey d.root d.path) = some r :=
          List.find?_cons_of_pos _ hk
        have hrows : (upsert_analysis ⟨r :: rs, n⟩ d).rows =
            updateRow d r :: rs.map (fun x => if x.id == r.id then updateRow d x else x) := by
          unfold upsert_analysis
          rw [hfind]
          simp
        refine ⟨updateRow d r, ?_, ?_⟩
        · rw [hrows]
          refine List.find?_cons_of_pos _ ((rowMatchesFp_iff _ _ _ _ _).mpr ?_)
          exact ⟨by rw [updateRow_root]; exact h1, by rw [updateRow_path]; exact h2, rfl, rfl⟩
        · simp [Row.data, updateRow, h1, h2]
      · have hfind : (r :: rs).find? (rowMatchesKey d.root d.path) =
            rs.find? (rowMatchesKey d.root d.path) := List.find?_cons_of_neg _ hk
        obtain ⟨r', hr', hdata⟩ := ih
        cases he : rs.find? (rowMatchesKey d.root d.path) with
        | some e =>
            have hrowsTail : (upsert_analysis ⟨rs, n⟩ d).rows =
                rs.map (fun x => if x.id == e.id then updateRow d x else x) := by
              unfold upsert_analysis
              rw [he]
            have hrows : (upsert_analysis ⟨r :: rs, n⟩ d).rows =
                (if r.id == e.id then updateRow d r else r) ::
                  rs.map (fun x => if x.id == e.id then updateRow d x else x) := by
              unfold upsert_analysis
              rw [hfind, he]
              simp
            have hheadfp : ¬ rowMatchesFp d.root d.path d.size_bytes d.mtime_ns
                (if r.id == e.id then updateRow d r else r) = true := by
              by_cases hid : (r.id == e.id) = true
              · rw [if_pos hid]
                intro hfp
                rcases (rowMatchesFp_iff _ _ _ _ _).mp hfp with ⟨ha, hb, _, _⟩
                rw [updateRow_root] at ha
                rw [updateRow_path] at hb
                exact hk ((rowMatchesKey_iff _ _ r).mpr ⟨ha, hb⟩)
              · rw [if_neg hid]
                exact not_fp_of_not_key d r hk
            rw [hrows, List.find?_cons_of_neg _ hheadfp, ← hrowsTail]
            exact ⟨r', hr', hdata⟩
        | none =>
            have hrowsTail : (upsert_analysis ⟨rs, n⟩ d).rows = rs ++ [d.toRow n] := by
              unfold upsert_analysis
              rw [he]
            have hrows : (upsert_analysis ⟨r :: rs, n⟩ d).rows = r :: (rs ++ [d.toRow n]) := by
              unfold upsert_analysis
              rw [hfind, he]
              rfl
            rw [hrows, List.find?_cons_of_neg _ (not_fp_of_not_key d r hk), ← hrowsTail]
            exact ⟨r', hr', hdata⟩

/-- C8: for every store state and record, upserting the record and then
looking it up with the same `(root, path)` and the same fingerprint returns
values field-for-field identical to the upserted record, aside from the
`id` column. -/
theorem C8_upsert_lookup_roundtrip :
    ∀ (db : DB) (d : AnalysisData),
      ∃ r, get_cached_analysis (upsert_analysis db d) d.root d.path d.size_bytes d.mtime_ns
          = some r ∧ r.data = d := by
  intro db d
  obtain ⟨r, hr, hd⟩ := roundtrip_find db.rows db.nextId d
  exact ⟨r, hr, hd⟩

/-! ## C4: upsert preserves the one-record-per-key invariant -/

lemma upsert_rows_found (db : DB) (d : AnalysisData) (e : Row)
    (h : db.rows.find? (rowMatchesKey d.root d.path) = some e) :
    (upsert_analysis db d).rows =
      db.rows.map (fun r => if r.id == e.id then updateRow d r else r)
    ∧ (upsert_analysis db d).nextId = db.nextId := by
  unfold upsert_analysis
  rw [h]
  exact ⟨rfl, rfl⟩

lemma upsert_rows_not_found (db : DB) (d : AnalysisData)
    (h : db.rows.find? (rowMatchesKey d.root d.path) = none) :
    (upsert_analysis db d).rows = db.rows ++ [d.toRow db.nextId]
    ∧ (upsert_analysis db d).nextId = db.nextId + 1 := by
  unfold upsert_analysis
  rw [h]
  exact ⟨rfl, rfl⟩

lemma condUpdate_root (d : AnalysisData) (e r : Row) :
    (if r.id == e.id then updateRow d r else r).root = r.root := by
  split_ifs <;> rfl

lemma condUpdate_path (d : AnalysisData) (e r : Row) :
    (if r.id == e.id then updateRow d r else r).path = r.path := by
  split_ifs <;> rfl

lemma condUpdate_id (d : AnalysisData) (e r : Row) :
    (if r.id == e.id then updateRow d r else r).id = r.id := by
  split_ifs <;> rfl

lemma upsert_preserves_atMostOne (db : DB) (d : AnalysisData)
    (h : AtMostOnePerKey db) : AtMostOnePerKey (upsert_analysis db d) := by
  unfold AtMostOnePerKey at h ⊢
  cases he : db.rows.find? (rowMatchesKey d.root d.path) with
  | some e =>
      rw [(upsert_rows_found db d e he).1]
      exact h.map _ (fun a b hab => by
        simpa only [condUpdate_root, condUpdate_path] using hab)
  | none =>
      rw [(upsert_rows_not_found db d he).1, List.pairwise_append]
      refine ⟨h, List.pairwise_singleton _ _, ?_⟩
      intro a ha b hb
      rw [List.mem_singleton] at hb
      subst hb
      intro hcontra
      have hnk := List.find?_eq_none.mp he a ha
      exact hnk ((rowMatchesKey_iff _ _ a).mpr ⟨hcontra.1, hcontra.2⟩)

lemma foldl_upsert_preserves_atMostOne (ds : List AnalysisData) (db : DB)
    (h : AtMostOnePerKey db) : AtMostOnePerKey (ds.foldl upsert_analysis db) := by
  induction ds generalizing db with
  | nil => exact h
  | cons d ds ih => exact ih _ (upsert_preserves_atMostOne db d h)

/-- C4: the invariant "at most one record per (root, relative path) pair"
is preserved by every upsert; when a row for the key exists the row set's
identities and cardinality are unchanged (update in place), otherwise
exactly one new row is appended; consequently no sequence of upserts ever
produces duplicate rows for a key. -/
theorem C4_upsert_uniqueness_invariant :
    (∀ (db : DB) (d : AnalysisData),
        AtMostOnePerKey db → AtMostOnePerKey (upsert_analysis db d))
    ∧ (∀ (db : DB) (d : AnalysisData) (e : Row),
        db.rows.find? (rowMatchesKey d.root d.path) = some e →
          (upsert_analysis db d).rows.map Row.id = db.rows.map Row.id
          ∧ (upsert_analysis db d).rows.length = db.rows.length)
    ∧ (∀ (db : DB) (d : AnalysisData),
        db.rows.find? (rowMatchesKey d.root d.path) = none →
          (upsert_analysis db d).rows = db.rows ++ [d.toRow db.nextId])
    ∧ (∀ (ds : List AnalysisData) (db : DB),
        AtMostOnePerKey db → AtMostOnePerKey (ds.foldl upsert_analysis db)) := by
  refine ⟨upsert_preserves_atMostOne, ?_, ?_, foldl_upsert_preserves_atMostOne⟩
  · intro db d e he
    constructor
    · rw [(upsert_rows_found db d e he).1, List.map_map]
      exact List.map_congr_left fun r _ => condUpdate_id d e r
    · rw [(upsert_rows_found db d e he).1, List.length_map]
  · intro db d he
    exact (upsert_rows_not_found db d he).1

/-- Witness for C4: a concrete two-row store satisfies the invariant, and
an upsert of a record keyed like one of its rows preserves it. -/
theorem C4_upsert_uniqueness_invariant_witness :
    AtMostOnePerKey exDB2 ∧ AtMostOnePerKey (upsert_analysis exDB2 exRowP.data) :=
  ⟨by unfold AtMostOnePerKey; decide,
    C4_upsert_uniqueness_invariant.1 exDB2 exRowP.data (by unfold AtMostOnePerKey; decide)⟩

/-! ## C9: rounded scores vs unrounded categories -/

lemma pyround2_halfband (s : ℚ) (hlo : 29999/200 ≤ s) (hhi : s < 150) :
    pyround s 2 = 150 := by
  have hf : ⌊s * 10 ^ 2⌋ = 14999 := by
    rw [Int.floor_eq_iff]
    constructor
    · push_cast
      linarith
    · push_cast
      linarith
  simp only [pyround, roundHalfEven, hf]
  split_ifs with ha hb hc
  · exfalso
    push_cast at ha
    linarith
  · push_cast
    norm_num
  · exact absurd hc (by decide)
  · push_cast
    norm_num

/-- C9: `analyze_image` returns `blur_score` rounded to 2 decimal places
and `center_score` rounded to 4, while `blur_category` and
`center_category` are computed from the unrounded scores; consequently for
any raw Laplacian variance in [149.995, 150) the returned pair is
`(blur_score = 150.0, blur_category = "soft")`, and re-applying the
categorization rule to the stored score gives "sharp", not "soft". -/
theorem C9_rounded_scores_unrounded_categories :
    (∀ (sqrtFn : ℚ → ℚ) (img : Image),
        (analyze_image sqrtFn img).blur_score = pyround img.blurRaw 2
        ∧ (analyze_image sqrtFn img).blur_category = categorize_blur img.blurRaw
        ∧ (analyze_image sqrtFn img).center_score = pyround (center_raw sqrtFn img) 4
        ∧ (analyze_image sqrtFn img).center_category
            = categorize_centering (center_raw sqrtFn img))
    ∧ (∀ (sqrtFn : ℚ → ℚ) (img : Image),
        29999/200 ≤ img.blurRaw → img.blurRaw < 150 →
          (analyze_image sqrtFn img).blur_score = 150
          ∧ (analyze_image sqrtFn img).blur_category = "soft"
          ∧ categorize_blur (analyze_image sqrtFn img).blur_score = "sharp") := by
  constructor
  · intro fn img
    exact ⟨rfl, rfl, rfl, rfl⟩
  · intro fn img hlo hhi
    refine ⟨?_, ?_, ?_⟩
    · show pyround img.blurRaw 2 = 150
      exact pyround2_halfband _ hlo hhi
    · show categorize_blur img.blurRaw = "soft"
      exact (blur_soft_iff _).mpr ⟨by linarith, hhi⟩
    · show categorize_blur (pyround img.blurRaw 2) = "sharp"
      rw [pyround2_halfband _ hlo hhi]
      exact (blur_sharp_iff _).mpr (by norm_num)

/-- Witness for C9 at the concrete raw blur score 149.996. -/
theorem C9_rounded_scores_witness :
    (analyze_image exSqrt exImgNearSharp).blur_score = 150
    ∧ (analyze_image exSqrt exImgNearSharp).blur_category = "soft"
    ∧ categorize_blur (analyze_image exSqrt exImgNearSharp).blur_score = "sharp" :=
  C9_rounded_scores_unrounded_categories.2 exSqrt exImgNearSharp
    (by norm_num [exImgNearSharp]) (by norm_num [exImgNearSharp])

/-! ## Pipeline infrastructure: processItem branch analysis -/

lemma processItem_seen (root now : String) (force : Bool) (fn : ℚ → ℚ)
    (s : RunState) (it : ScanItem) :
    (processItem root now force fn s it).seen = s.seen ++ [it.rel_path] := by
  unfold processItem
  cases hstat : it.stat with
  | none => rfl
  | some p =>
      obtain ⟨sz, mt⟩ := p
      dsimp only
      split_ifs
      · rfl
      · cases himg : it.img with
        | none => rfl
        | some im => rfl

lemma processItem_db_cases (root now : String) (force : Bool) (fn : ℚ → ℚ)
    (s : RunState) (it : ScanItem) :
    (processItem root now force fn s it).db = s.db
    ∨ ∃ d : AnalysisData, d.root = root ∧ d.path = it.rel_path
        ∧ (processItem root now force fn s it).db = upsert_analysis s.db d := by
  unfold processItem
  cases hstat : it.stat with
  | none => left; rfl
  | some p =>
      obtain ⟨sz, mt⟩ := p
      dsimp only
      split_ifs
      · left; rfl
      · cases himg : it.img with
        | none => left; rfl
        | some im => right; exact ⟨_, rfl, rfl, rfl⟩

lemma processItem_db_of_img_none (root now : String) (force : Bool) (fn : ℚ → ℚ)
    (s : RunState) (it : ScanItem) (h : it.img = none) :
    (processItem root now force fn s it).db = s.db := by
  unfold processItem
  cases hstat : it.stat with
  | none => rfl
  | some p =>
      obtain ⟨sz, mt⟩ := p
      dsimp only
      split_ifs
      · rfl
      · rw [h]

/-! ## Pipeline infrastructure: upsert row-set lemmas -/

lemma upsert_keeps_key (db : DB) (d : AnalysisData) (r : Row) (hr : r ∈ db.rows) :
    ∃ r' ∈ (upsert_analysis db d).rows, r'.root = r.root ∧ r'.path = r.path := by
  cases he : db.rows.find? (rowMatchesKey d.root d.path) with
  | some e =>
      rw [(upsert_rows_found db d e he).1]
      exact ⟨_, List.mem_map_of_mem _ hr, condUpdate_root d e r, condUpdate_path d e r⟩
  | none =>
      rw [(upsert_rows_not_found db d he).1]
      exact ⟨r, List.mem_append_left _ hr, rfl, rfl⟩

lemma upsert_mem_src (db : DB) (d : AnalysisData) (r' : Row)
    (h : r' ∈ (upsert_analysis db d).rows) :
    (∃ r ∈ db.rows, r.root = r'.root ∧ r.path = r'.path)
    ∨ (r'.root = d.root ∧ r'.path = d.path) := by
  cases he : db.rows.find? (rowMatchesKey d.root d.path) with
  | some e =>
      rw [(upsert_rows_found db d e he).1] at h
      obtain ⟨r, hr, hfr⟩ := List.mem_map.mp h
      left
      refine ⟨r, hr, ?_, ?_⟩
      · rw [← hfr]; exact (condUpdate_root d e r).symm
      · rw [← hfr]; exact (condUpdate_path d e r).symm
  | none =>
      rw [(upsert_rows_not_found db d he).1] at h
      rcases List.mem_append.mp h with h1 | h2
      · left; exact ⟨r', h1, rfl, rfl⟩
      · right
        rw [List.mem_singleton] at h2
        subst h2
        exact ⟨rfl, rfl⟩

lemma upsert_WF (db : DB) (d : AnalysisData) (h : WF db) : WF (upsert_analysis db d) := by
  obtain ⟨hnd, hlt⟩ := h
  cases he : db.rows.find? (rowMatchesKey d.root d.path) with
  | some e =>
      obtain ⟨hrows, hnext⟩ := upsert_rows_found db d e he
      constructor
      · have hmapeq :
            List.map (Row.id ∘ fun r => if r.id == e.id then updateRow d r else r) db.rows
              = List.map Row.id db.rows :=
          List.map_congr_left fun r _ => condUpdate_id d e r
        rw [hrows, List.map_map, hmapeq]
        exact hnd
      · intro r' hr'
        rw [hnext]
        rw [hrows] at hr'
        obtain ⟨r, hr, hfr⟩ := List.mem_map.mp hr'
        have hid : r'.id = r.id := by rw [← hfr]; exact condUpdate_id d e r
        rw [hid]
        exact hlt r hr
  | none =>
      obtain ⟨hrows, hnext⟩ := upsert_rows_not_found db d he
      constructor
      · rw [hrows, List.map_append]
        rw [List.nodup_append]
        refine ⟨hnd, List.nodup_singleton _, ?_⟩
        intro a ha hb
        simp only [List.map_cons, List.map_nil, List.mem_singleton] at hb
        simp only [AnalysisData.toRow] at hb
        obtain ⟨r, hr, hid⟩ := List.mem_map.mp ha
        have hlt' := hlt r hr
        rw [hid, hb] at hlt'
        omega
      · intro r' hr'
        rw [hnext]
        rw [hrows] at hr'
        rcases List.mem_append.mp hr' with h1 | h2
        · exact Nat.lt_trans (hlt r' h1) (Nat.lt_succ_self _)
        · rw [List.mem_singleton] at h2
          subst h2
          exact Nat.lt_succ_self _

lemma upsert_untouched (db : DB) (d : AnalysisData) (hWF : WF db) (r : Row)
    (hr : r ∈ db.rows) (hne : ¬(r.root = d.root ∧ r.path = d.path)) :
    r ∈ (upsert_analysis db d).rows := by
  cases he : db.rows.find? (rowMatchesKey d.root d.path) with
  | some e =>
      rw [(upsert_rows_found db d e he).1]
      have hekey := (rowMatchesKey_iff d.root d.path e).mp (List.find?_some he)
      have hee : e ∈ db.rows := List.mem_of_find?_eq_some he
      have hidne : r.id ≠ e.id := by
        intro hid
        have hre : r = e := List.inj_on_of_nodup_map hWF.1 hr hee hid
        exact hne ⟨by rw [hre]; exact hekey.1, by rw [hre]; exact hekey.2⟩
      have hfix : (fun x => if x.id == e.id then updateRow d x else x) r = r := by
        simp [hidne]
      rw [← hfix]
      exact List.mem_map_of_mem _ hr
  | none =>
      rw [(upsert_rows_not_found db d he).1]
      exact List.mem_append_left _ hr

lemma processItem_WF (root now : String) (force : Bool) (fn : ℚ → ℚ)
    (s : RunState) (it : ScanItem) (h : WF s.db) :
    WF (processItem root now force fn s it).db := by
  rcases processItem_db_cases root now force fn s it with hsame | ⟨d, _, _, heq⟩
  · rw [hsame]; exact h
  · rw [heq]; exact upsert_WF s.db d h

/-! ## Pipeline infrastructure: fold-level lemmas -/

lemma foldl_seen (root now : String) (force : Bool) (fn : ℚ → ℚ) (items : List ScanItem) :
    ∀ s : RunState,
      (items.foldl (processItem root now force fn) s).seen
        = s.seen ++ items.map (fun it => it.rel_path) := by
  induction items with
  | nil => intro s; simp
  | cons it tl ih =>
      intro s
      rw [List.foldl_cons, ih, processItem_seen]
      simp

lemma fold_keeps_key (root now : String) (force : Bool) (fn : ℚ → ℚ) (items : List ScanItem) :
    ∀ (s : RunState) (r : Row), r ∈ s.db.rows →
      ∃ r' ∈ (items.foldl (processItem root now force fn) s).db.rows,
        r'.root = r.root ∧ r'.path = r.path := by
  induction items with
  | nil => intro s r hr; exact ⟨r, hr, rfl, rfl⟩
  | cons it tl ih =>
      intro s r hr
      rw [List.foldl_cons]
      rcases processItem_db_cases root now force fn s it with hsame | ⟨d, _, _, heq⟩
      · exact ih _ r (by rw [hsame]; exact hr)
      · obtain ⟨r', hr', h1, h2⟩ := upsert_keeps_key s.db d r hr
        obtain ⟨r'', hr'', h1', h2'⟩ := ih _ r' (by rw [heq]; exact hr')
        exact ⟨r'', hr'', by rw [h1', h1], by rw [h2', h2]⟩

lemma fold_rows_src (root now : String) (force : Bool) (fn : ℚ → ℚ) (items : List ScanItem) :
    ∀ (s : RunState) (r' : Row),
      r' ∈ (items.foldl (processItem root now force fn) s).db.rows →
      (∃ r ∈ s.db.rows, r.root = r'.root ∧ r.path = r'.path)
      ∨ (r'.root = root ∧ r'.path ∈ items.map (fun it => it.rel_path)) := by
  induction items with
  | nil => intro s r' h; left; exact ⟨r', h, rfl, rfl⟩
  | cons it tl ih =>
      intro s r' h
      rw [List.foldl_cons] at h
      rcases ih _ r' h with ⟨r1, hr1, e1, e2⟩ | ⟨h1, h2⟩
      · rcases processItem_db_cases root now force fn s it with hsame | ⟨d, hd1, hd2, heq⟩
        · left; exact ⟨r1, by rw [hsame] at hr1; exact hr1, e1, e2⟩
        · rw [heq] at hr1
          rcases upsert_mem_src s.db d r1 hr1 with ⟨r0, hr0, f1, f2⟩ | ⟨g1, g2⟩
          · left; exact ⟨r0, hr0, by rw [f1, e1], by rw [f2, e2]⟩
          · right
            have hroot : r'.root = root := by rw [← e1, g1]; exact hd1
            have hpath : r'.path = it.rel_path := by rw [← e2, g2]; exact hd2
            refine ⟨hroot, ?_⟩
            rw [List.map_cons, hpath]
            exact List.mem_cons_self _ _
      · right
        exact ⟨h1, by rw [List.map_cons]; exact List.mem_cons_of_mem _ h2⟩

lemma fold_WF (root now : String) (force : Bool) (fn : ℚ → ℚ) (items : List ScanItem) :
    ∀ s : RunState, WF s.db →
      WF ((items.foldl (processItem root now force fn) s)).db := by
  induction items with
  | nil => intro s h; exact h
  | cons it tl ih =>
      intro s h
      rw [List.foldl_cons]
      exact ih _ (processItem_WF root now force fn s it h)

lemma fold_untouched (root now : String) (force : Bool) (fn : ℚ → ℚ) (items : List ScanItem) :
    ∀ (s : RunState) (r : Row), WF s.db → r ∈ s.db.rows →
      (∀ it ∈ items, it.rel_path = r.path → it.img = none) →
      r ∈ (items.foldl (processItem root now force fn) s).db.rows := by
  induction items with
  | nil => intro s r _ hr _; exact hr
  | cons it tl ih =>
      intro s r hWF hr hcond
      rw [List.foldl_cons]
      have hnext : r ∈ (processItem root now force fn s it).db.rows := by
        by_cases hpath : it.rel_path = r.path
        · rw [processItem_db_of_img_none root now force fn s it
            (hcond it (List.mem_cons_self _ _) hpath)]
          exact hr
        · rcases processItem_db_cases root now force fn s it with hsame | ⟨d, hd1, hd2, heq⟩
          · rw [hsame]; exact hr
          · rw [heq]
            refine upsert_untouched s.db d hWF r hr ?_
            intro hc
            exact hpath (by rw [← hd2]; exact hc.2.symm)
      exact ih _ r (processItem_WF root now force fn s it hWF) hnext
        (fun x hx => hcond x (List.mem_cons_of_mem _ hx))

/-! ## Pipeline infrastructure: cache-match lemmas -/

lemma get_cached_isSome_iff (db : DB) (root path : String) (sz mt : ℤ) :
    (get_cached_analysis db root path sz mt).isSome ↔ MatchRow db root path sz mt := by
  unfold get_cached_analysis MatchRow
  rw [List.find?_isSome]
  constructor
  · rintro ⟨r, hr, hp⟩
    exact ⟨r, hr, (rowMatchesFp_iff root path sz mt r).mp hp⟩
  · rintro ⟨r, hr, hp⟩
    exact ⟨r, hr, (rowMatchesFp_iff root path sz mt r).mpr hp⟩

lemma upsert_establishes_match (db : DB) (d : AnalysisData) :
    MatchRow (upsert_analysis db d) d.root d.path d.size_bytes d.mtime_ns := by
  obtain ⟨r, hr, hdata⟩ := roundtrip_find db.rows db.nextId d
  refine ⟨r, List.mem_of_find?_eq_some hr, ?_, ?_, ?_, ?_⟩
  · exact congrArg AnalysisData.root hdata
  · exact congrArg AnalysisData.path hdata
  · exact congrArg AnalysisData.size_bytes hdata
  · exact congrArg AnalysisData.mtime_ns hdata

lemma upsert_preserves_match (db : DB) (d : AnalysisData) (root p : String) (sz mt : ℤ)
    (hWF : WF db) (hne : ¬(root = d.root ∧ p = d.path)) (h : MatchRow db root p sz mt) :
    MatchRow (upsert_analysis db d) root p sz mt := by
  obtain ⟨r, hr, h1, h2, h3, h4⟩ := h
  refine ⟨r, ?_, h1, h2, h3, h4⟩
  refine upsert_untouched db d hWF r hr ?_
  intro hc
  exact hne ⟨by rw [← h1]; exact hc.1, by rw [← h2]; exact hc.2⟩

lemma processItem_establishes (root now : String) (force : Bool) (fn : ℚ → ℚ)
    (s : RunState) (it : ScanItem) (sz mt : ℤ)
    (hstat : it.stat = some (sz, mt)) (himg : it.img.isSome) :
    MatchRow (processItem root now force fn s it).db root it.rel_path sz mt := by
  unfold processItem
  rw [hstat]
  dsimp only
  split_ifs with hc
  · have hc2 : (get_cached_analysis s.db root it.rel_path sz mt).isSome = true := by
      simp only [Bool.and_eq_true] at hc
      exact hc.2
    exact (get_cached_isSome_iff s.db root it.rel_path sz mt).mp hc2
  · obtain ⟨im, him⟩ := Option.isSome_iff_exists.mp himg
    rw [him]
    exact upsert_establishes_match s.db _

lemma processItem_cached_eq (root now : String) (fn : ℚ → ℚ) (s : RunState)
    (it : ScanItem) (sz mt : ℤ) (hstat : it.stat = some (sz, mt))
    (hc : (get_cached_analysis s.db root it.rel_path sz mt).isSome = true) :
    processItem root now false fn s it =
      { s with seen := s.seen ++ [it.rel_path],
               stats := { s.stats with cached := s.stats.cached + 1 } } := by
  unfold processItem
  rw [hstat]
  dsimp only
  rw [if_pos (by simp [hc])]

lemma fold_preserves_match (root now : String) (force : Bool) (fn : ℚ → ℚ)
    (items : List ScanItem) (p : String) (sz mt : ℤ) :
    ∀ s : RunState, WF s.db → p ∉ items.map (fun it => it.rel_path) →
      MatchRow s.db root p sz mt →
      MatchRow (items.foldl (processItem root now force fn) s).db root p sz mt := by
  induction items with
  | nil => intro s _ _ h; exact h
  | cons it tl ih =>
      intro s hWF hp h
      rw [List.foldl_cons]
      have hp' : p ∉ tl.map (fun it => it.rel_path) := by
        intro hh
        exact hp (by rw [List.map_cons]; exact List.mem_cons_of_mem _ hh)
      refine ih _ (processItem_WF root now force fn s it hWF) hp' ?_
      rcases processItem_db_cases root now force fn s it with hsame | ⟨d, hd1, hd2, heq⟩
      · rw [hsame]; exact h
      · rw [heq]
        refine upsert_preserves_match s.db d root p sz mt hWF ?_ h
        intro hc
        apply hp
        rw [List.map_cons]
        have hpp : p = it.rel_path := by rw [hc.2, hd2]
        rw [hpp]
        exact List.mem_cons_self _ _

lemma fold_establishes (root now : String) (force : Bool) (fn : ℚ → ℚ)
    (items : List ScanItem) :
    ∀ s : RunState, WF s.db →
      (∀ it ∈ items, it.stat.isSome ∧ it.img.isSome) →
      (items.map (fun it => it.rel_path)).Nodup →
      ∀ it ∈ items, ∀ sz mt : ℤ, it.stat = some (sz, mt) →
        MatchRow (items.foldl (processItem root now force fn) s).db root it.rel_path sz mt := by
  induction items with
  | nil => intro s _ _ _ it hit; exact absurd hit (List.not_mem_nil it)
  | cons hd tl ih =>
      intro s hWF hok hnd it hit sz mt hstat
      rw [List.foldl_cons]
      rw [List.map_cons, List.nodup_cons] at hnd
      rcases List.mem_cons.mp hit with rfl | hmem
      · have hm := processItem_establishes root now force fn s it sz mt hstat
          (hok it (List.mem_cons_self _ _)).2
        exact fold_preserves_match root now force fn tl it.rel_path sz mt _
          (processItem_WF root now force fn s it hWF) hnd.1 hm
      · exact ih _ (processItem_WF root now force fn s hd hWF)
          (fun x hx => hok x (List.mem_cons_of_mem _ hx)) hnd.2 it hmem sz mt hstat

lemma fold_all_cached (root now : String) (fn : ℚ → ℚ) (items : List ScanItem) :
    ∀ s : RunState,
      (∀ it ∈ items, ∃ sz mt : ℤ, it.stat = some (sz, mt) ∧
        (get_cached_analysis s.db root it.rel_path sz mt).isSome = true) →
      (items.foldl (processItem root now false fn) s).db = s.db
      ∧ (items.foldl (processItem root now false fn) s).stats.analyzed = s.stats.analyzed
      ∧ (items.foldl (processItem root now false fn) s).stats.cached
          = s.stats.cached + items.length
      ∧ (items.foldl (processItem root now false fn) s).stats.total = s.stats.total := by
  induction items with
  | nil => intro s _; exact ⟨rfl, rfl, rfl, rfl⟩
  | cons hd tl ih =>
      intro s hall
      obtain ⟨sz, mt, hstat, hc⟩ := hall hd (List.mem_cons_self _ _)
      rw [List.foldl_cons, processItem_cached_eq root now fn s hd sz mt hstat hc]
      set s2 : RunState :=
        { s with seen := s.seen ++ [hd.rel_path],
                 stats := { s.stats with cached := s.stats.cached + 1 } } with hs2
      have hall2 : ∀ it ∈ tl, ∃ sz mt : ℤ, it.stat = some (sz, mt) ∧
          (get_cached_analysis s2.db root it.rel_path sz mt).isSome = true :=
        fun it hit => hall it (List.mem_cons_of_mem _ hit)
      obtain ⟨h1, h2, h3, h4⟩ := ih s2 hall2
      refine ⟨h1, h2, ?_, h4⟩
      rw [h3]
      show s.stats.cached + 1 + tl.length = s.stats.cached + (hd :: tl).length
      rw [List.length_cons]
      omega

/-! ## Pipeline infrastructure: reconcile lemmas -/

lemma mem_pathsToDelete (db : DB) (root : String) (seen : List String) (p : String) :
    p ∈ pathsToDelete db root seen ↔
      (∃ r ∈ db.rows, r.root = root ∧ r.path = p) ∧ p ∉ seen := by
  unfold pathsToDelete
  rw [List.mem_filter, List.mem_dedup]
  constructor
  · rintro ⟨hmem, hpred⟩
    obtain ⟨r, hrf, hrp⟩ := List.mem_map.mp hmem
    obtain ⟨hr, hroot⟩ := List.mem_filter.mp hrf
    refine ⟨⟨r, hr, by rwa [beq_iff_eq] at hroot, hrp⟩, ?_⟩
    intro hseen
    rw [Bool.not_eq_true'] at hpred
    have hct : seen.contains p = true := List.elem_iff.mpr hseen
    rw [hpred] at hct
    exact Bool.false_ne_true hct
  · rintro ⟨⟨r, hr, hroot, hpath⟩, hseen⟩
    constructor
    · exact List.mem_map.mpr ⟨r, List.mem_filter.mpr ⟨hr, beq_iff_eq.mpr hroot⟩, hpath⟩
    · rw [Bool.not_eq_true', Bool.eq_false_iff]
      intro hct
      exact hseen (List.elem_iff.mp hct)

lemma nodup_pathsToDelete (db : DB) (root : String) (seen : List String) :
    (pathsToDelete db root seen).Nodup := by
  unfold pathsToDelete
  exact (List.nodup_dedup _).filter _

lemma delete_mem_iff (db : DB) (root : String) (seen : List String) (r : Row) :
    r ∈ (delete_missing_files db root seen).2.rows ↔
      r ∈ db.rows ∧ (r.root ≠ root ∨ r.path ∈ seen) := by
  have hrows : (delete_missing_files db root seen).2.rows =
      db.rows.filter
        (fun x => !(x.root == root && (pathsToDelete db root seen).contains x.path)) := rfl
  rw [hrows, List.mem_filter]
  constructor
  · rintro ⟨hmem, hpred⟩
    refine ⟨hmem, ?_⟩
    by_cases hroot : r.root = root
    · by_cases hseen : r.path ∈ seen
      · exact Or.inr hseen
      · exfalso
        have hdel : r.path ∈ pathsToDelete db root seen :=
          (mem_pathsToDelete db root seen r.path).mpr ⟨⟨r, hmem, hroot, rfl⟩, hseen⟩
        rw [Bool.not_eq_true', Bool.and_eq_false_iff] at hpred
        rcases hpred with h | h
        · exact (beq_eq_false_iff_ne.mp h) hroot
        · rw [Bool.eq_false_iff] at h
          exact h (List.elem_iff.mpr hdel)
    · exact Or.inl hroot
  · rintro ⟨hmem, hcond⟩
    refine ⟨hmem, ?_⟩
    rw [Bool.not_eq_true', Bool.and_eq_false_iff]
    rcases hcond with hroot | hseen
    · exact Or.inl (beq_eq_false_iff_ne.mpr hroot)
    · right
      rw [Bool.eq_false_iff]
      intro hct
      exact ((mem_pathsToDelete db root seen r.path).mp (List.elem_iff.mp hct)).2 hseen

lemma delete_count (db : DB) (root : String) (seen : List String) :
    (delete_missing_files db root seen).1 = (pathsToDelete db root seen).length := rfl

lemma length_eq_one_of_nodup (l : List String) (p : String) (hnd : l.Nodup)
    (hiff : ∀ q, q ∈ l ↔ q = p) : l.length = 1 := by
  cases l with
  | nil => exact absurd ((hiff p).mpr rfl) (List.not_mem_nil p)
  | cons a t =>
      have ha : a = p := (hiff a).mp (List.mem_cons_self _ _)
      cases t with
      | nil => rfl
      | cons b t2 =>
          have hb : b = p := (hiff b).mp (List.mem_cons_of_mem _ (List.mem_cons_self _ _))
          rw [List.nodup_cons] at hnd
          exact absurd (show a ∈ b :: t2 by rw [ha, ← hb]; exact List.mem_cons_self _ _) hnd.1

/-! ## Pipeline infrastructure: process_images unfoldings -/

lemma process_images_nil (root now : String) (force : Bool) (fn : ℚ → ℚ) (db0 : DB) :
    process_images root now force fn [] db0 =
      ({ total := 0, analyzed := 0, cached := 0, errors := 0, deleted := 0 }, db0) := rfl

lemma process_images_ne (root now : String) (force : Bool) (fn : ℚ → ℚ)
    (items : List ScanItem) (db0 : DB) (h : items ≠ []) :
    process_images root now force fn items db0 =
      (let s1 := items.foldl (processItem root now force fn)
          { stats := { total := items.length, analyzed := 0, cached := 0,
                       errors := 0, deleted := 0 },
            db := db0, seen := [] };
       ({ s1.stats with deleted := (delete_missing_files s1.db root s1.seen).1 },
        (delete_missing_files s1.db root s1.seen).2)) := by
  unfold process_images
  rw [if_neg (by simpa using h)]

/-! ## C5 infrastructure: counting on a fresh store -/

lemma countP_isSome_add_isNone (items : List ScanItem) :
    items.countP (fun it => it.img.isSome) + items.countP (fun it => it.img.isNone)
      = items.length := by
  induction items with
  | nil => rfl
  | cons hd tl ih =>
      rw [List.countP_cons, List.countP_cons, List.length_cons]
      cases himg : hd.img with
      | none =>
          simp [himg]
          omega
      | some im =>
          simp [himg]
          omega

lemma processItem_analyzed_eq (root now : String) (force : Bool) (fn : ℚ → ℚ)
    (s : RunState) (it : ScanItem) (sz mt : ℤ) (im : Image)
    (hstat : it.stat = some (sz, mt)) (himg : it.img = some im)
    (hcond : (!force && (get_cached_analysis s.db root it.rel_path sz mt).isSome) = false) :
    ∃ d : AnalysisData, d.root = root ∧ d.path = it.rel_path ∧
      processItem root now force fn s it =
        { seen := s.seen ++ [it.rel_path],
          db := upsert_analysis s.db d,
          stats := { s.stats with analyzed := s.stats.analyzed + 1 } } := by
  unfold processItem
  rw [hstat]
  dsimp only
  rw [if_neg (by simp [hcond])]
  rw [himg]
  exact ⟨_, rfl, rfl, rfl⟩

lemma processItem_error_eq (root now : String) (force : Bool) (fn : ℚ → ℚ)
    (s : RunState) (it : ScanItem) (sz mt : ℤ)
    (hstat : it.stat = some (sz, mt)) (himg : it.img = none)
    (hcond : (!force && (get_cached_analysis s.db root it.rel_path sz mt).isSome) = false) :
    processItem root now force fn s it =
      { s with seen := s.seen ++ [it.rel_path],
               stats := { s.stats with errors := s.stats.errors + 1 } } := by
  unfold processItem
  rw [hstat]
  dsimp only
  rw [if_neg (by simp [hcond])]
  rw [himg]

lemma fold_fresh_counts (root now : String) (force : Bool) (fn : ℚ → ℚ)
    (items : List ScanItem) :
    ∀ s : RunState,
      (∀ it ∈ items, it.stat.isSome) →
      (items.map (fun it => it.rel_path)).Nodup →
      (∀ r ∈ s.db.rows, r.root = root → r.path ∉ items.map (fun it => it.rel_path)) →
      (items.foldl (processItem root now force fn) s).stats.analyzed
          = s.stats.analyzed + items.countP (fun it => it.img.isSome)
      ∧ (items.foldl (processItem root now force fn) s).stats.errors
          = s.stats.errors + items.countP (fun it => it.img.isNone)
      ∧ (items.foldl (processItem root now force fn) s).stats.cached = s.stats.cached
      ∧ (items.foldl (processItem root now force fn) s).stats.total = s.stats.total := by
  induction items with
  | nil => intro s _ _ _; exact ⟨rfl, rfl, rfl, rfl⟩
  | cons hd tl ih =>
      intro s hok hnd hinv
      rw [List.map_cons, List.nodup_cons] at hnd
      obtain ⟨⟨sz, mt⟩, hstat⟩ := Option.isSome_iff_exists.mp (hok hd (List.mem_cons_self _ _))
      have hmiss : (get_cached_analysis s.db root hd.rel_path sz mt).isSome = false := by
        by_contra hx
        have hsome : (get_cached_analysis s.db root hd.rel_path sz mt).isSome = true := by
          revert hx
          cases (get_cached_analysis s.db root hd.rel_path sz mt).isSome <;> simp
        obtain ⟨r, hrmem, e1, e2, _, _⟩ := (get_cached_isSome_iff _ _ _ _ _).mp hsome
        exact hinv r hrmem e1 (by rw [List.map_cons, e2]; exact List.mem_cons_self _ _)
      have hcond : (!force && (get_cached_analysis s.db root hd.rel_path sz mt).isSome)
          = false := by
        rw [hmiss, Bool.and_false]
      cases himg : hd.img with
      | none =>
          rw [List.foldl_cons, processItem_error_eq root now force fn s hd sz mt hstat himg hcond]
          have hrest := ih
            { s with seen := s.seen ++ [hd.rel_path],
                     stats := { s.stats with errors := s.stats.errors + 1 } }
            (fun it hit => hok it (List.mem_cons_of_mem _ hit)) hnd.2
            (fun r hrm hroot hmem =>
              hinv r hrm hroot (by rw [List.map_cons]; exact List.mem_cons_of_mem _ hmem))
          obtain ⟨h1, h2, h3, h4⟩ := hrest
          dsimp only at h1 h2 h3 h4
          refine ⟨?_, ?_, h3, h4⟩
          · rw [h1, List.countP_cons]
            simp [himg]
          · rw [h2, List.countP_cons]
            simp only [himg, Option.isNone_none, if_pos]
            omega
      | some im =>
          obtain ⟨d, hd1, hd2, hstep⟩ :=
            processItem_analyzed_eq root now force fn s hd sz mt im hstat himg hcond
          rw [List.foldl_cons, hstep]
          have hrest := ih
            { seen := s.seen ++ [hd.rel_path],
              db := upsert_analysis s.db d,
              stats := { s.stats with analyzed := s.stats.analyzed + 1 } }
            (fun it hit => hok it (List.mem_cons_of_mem _ hit)) hnd.2
            (fun r hrm hroot hmem => by
              rcases upsert_mem_src s.db d r hrm with ⟨r0, hr0, f1, f2⟩ | ⟨g1, g2⟩
              · refine hinv r0 hr0 (by rw [f1]; exact hroot) ?_
                rw [List.map_cons, f2]
                exact List.mem_cons_of_mem _ hmem
              · apply hnd.1
                rw [← hd2, ← g2]
                exact hmem)
          obtain ⟨h1, h2, h3, h4⟩ := hrest
          dsimp only at h1 h2 h3 h4
          refine ⟨?_, ?_, h3, h4⟩
          · rw [h1, List.countP_cons]
            simp only [himg, Option.isSome_some, if_pos]
            omega
          · rw [h2, List.countP_cons]
            simp [himg]

lemma fold_key_present (root now : String) (force : Bool) (fn : ℚ → ℚ)
    (items : List ScanItem) :
    ∀ (s : RunState) (it : ScanItem), it ∈ items →
      ∀ sz mt : ℤ, it.stat = some (sz, mt) → it.img.isSome →
      ∃ r ∈ (items.foldl (processItem root now force fn) s).db.rows,
        r.root = root ∧ r.path = it.rel_path := by
  induction items with
  | nil => intro s it hit; exact absurd hit (List.not_mem_nil it)
  | cons hd tl ih =>
      intro s it hit sz mt hstat himg
      rw [List.foldl_cons]
      rcases List.mem_cons.mp hit with rfl | hmem
      · obtain ⟨r, hr, e1, e2, _, _⟩ :=
          processItem_establishes root now force fn s it sz mt hstat himg
        obtain ⟨r', hr', g1, g2⟩ := fold_keeps_key root now force fn tl _ r hr
        exact ⟨r', hr', by rw [g1, e1], by rw [g2, e2]⟩
      · exact ih _ it hmem sz mt hstat himg

/-- C5: on a fresh store, a scan containing exactly one undecodable image
among otherwise stat-able, decodable images completes with `errors == 1`
and `analyzed == N` (`N` = number of decodable images), every decodable
image's record is persisted, and the run outcome (`main`'s exit code) is
non-zero exactly when `errors > 0`. -/
theorem C5_error_isolation :
    (∀ stats : Stats, run_outcome stats ≠ 0 ↔ stats.errors > 0)
    ∧ ∀ (root now : String) (force : Bool) (fn : ℚ → ℚ) (items : List ScanItem),
        (∀ it ∈ items, it.stat.isSome) →
        (items.map (fun it => it.rel_path)).Nodup →
        items.countP (fun it => it.img.isNone) = 1 →
        (process_images root now force fn items ⟨[], 0⟩).1.errors = 1
        ∧ (process_images root now force fn items ⟨[], 0⟩).1.analyzed = items.length - 1
        ∧ (process_images root now force fn items ⟨[], 0⟩).1.total = items.length
        ∧ run_outcome (process_images root now force fn items ⟨[], 0⟩).1 = 1
        ∧ ∀ it ∈ items, it.img.isSome →
            ∃ r ∈ (process_images root now force fn items ⟨[], 0⟩).2.rows,
              r.root = root ∧ r.path = it.rel_path := by
  constructor
  · intro stats
    unfold run_outcome
    split_ifs with h
    · simp [h]
    · constructor
      · intro _
        omega
      · intro _
        norm_num
  · intro root now force fn items hok hnd hcount
    have hne : items ≠ [] := by
      intro h
      rw [h] at hcount
      simp at hcount
    rw [process_images_ne root now force fn items ⟨[], 0⟩ hne]
    dsimp only
    have hinv0 : ∀ r ∈ (⟨[], 0⟩ : DB).rows, r.root = root →
        r.path ∉ items.map (fun it => it.rel_path) :=
      fun r hr => absurd hr (List.not_mem_nil r)
    obtain ⟨h1, h2, h3, h4⟩ := fold_fresh_counts root now force fn items
      { stats := { total := items.length, analyzed := 0, cached := 0,
                   errors := 0, deleted := 0 },
        db := ⟨[], 0⟩, seen := [] } hok hnd hinv0
    dsimp only at h1 h2 h3 h4
    have herr : (items.foldl (processItem root now force fn)
        { stats := { total := items.length, analyzed := 0, cached := 0,
                     errors := 0, deleted := 0 },
          db := ⟨[], 0⟩, seen := [] }).stats.errors = 1 := by
      rw [h2, hcount]
    have hana : (items.foldl (processItem root now force fn)
        { stats := { total := items.length, analyzed := 0, cached := 0,
                     errors := 0, deleted := 0 },
          db := ⟨[], 0⟩, seen := [] }).stats.analyzed = items.length - 1 := by
      rw [h1]
      have := countP_isSome_add_isNone items
      omega
    refine ⟨herr, hana, h4, ?_, ?_⟩
    · unfold run_outcome
      dsimp only
      rw [if_neg (by rw [herr]; norm_num)]
    · intro it hit hsome
      obtain ⟨⟨sz, mt⟩, hstat⟩ := Option.isSome_iff_exists.mp (hok it hit)
      obtain ⟨r, hr, e1, e2⟩ := fold_key_present root now force fn items
        { stats := { total := items.length, analyzed := 0, cached := 0,
                     errors := 0, deleted := 0 },
          db := ⟨[], 0⟩, seen := [] } it hit sz mt hstat hsome
      refine ⟨r, ?_, e1, e2⟩
      rw [delete_mem_iff]
      refine ⟨hr, Or.inr ?_⟩
      rw [foldl_seen, e2]
      show it.rel_path ∈ [] ++ items.map (fun x => x.rel_path)
      rw [List.nil_append]
      exact List.mem_map_of_mem _ hit

/-- Witness for C5: one corrupt image plus one valid image on a fresh
store. -/
theorem C5_error_isolation_witness :
    (process_images "/r" "t1" false exSqrt [exItemBad, exItemGood] ⟨[], 0⟩).1.errors = 1
    ∧ (process_images "/r" "t1" false exSqrt [exItemBad, exItemGood] ⟨[], 0⟩).1.analyzed
        = [exItemBad, exItemGood].length - 1
    ∧ (process_images "/r" "t1" false exSqrt [exItemBad, exItemGood] ⟨[], 0⟩).1.total
        = [exItemBad, exItemGood].length
    ∧ run_outcome (process_images "/r" "t1" false exSqrt [exItemBad, exItemGood] ⟨[], 0⟩).1 = 1
    ∧ ∀ it ∈ [exItemBad, exItemGood], it.img.isSome →
        ∃ r ∈ (process_images "/r" "t1" false exSqrt [exItemBad, exItemGood] ⟨[], 0⟩).2.rows,
          r.root = "/r" ∧ r.path = it.rel_path :=
  C5_error_isolation.2 "/r" "t1" false exSqrt [exItemBad, exItemGood]
    (by decide) (by decide) (by decide)

/-! ## C2: second-run idempotence -/

/-- C2 (amended): running the pipeline twice on an unchanged scan in which
every file can be statted and decoded yields `analyzed == 0` and
`cached == total` on the second (non-force) run. The `WF` hypothesis is the
primary-key well-formedness SQLite guarantees for the store. -/
theorem C2_idempotent_rerun :
    ∀ (root now1 now2 : String) (force1 : Bool) (fn1 fn2 : ℚ → ℚ)
      (items : List ScanItem) (db0 : DB),
      WF db0 →
      (∀ it ∈ items, it.stat.isSome ∧ it.img.isSome) →
      (items.map (fun it => it.rel_path)).Nodup →
      (process_images root now2 false fn2 items
        (process_images root now1 force1 fn1 items db0).2).1.analyzed = 0
      ∧ (process_images root now2 false fn2 items
          (process_images root now1 force1 fn1 items db0).2).1.cached =
        (process_images root now2 false fn2 items
          (process_images root now1 force1 fn1 items db0).2).1.total := by
  intro root now1 now2 force1 fn1 fn2 items db0 hWF hok hnd
  by_cases hne : items = []
  · subst hne
    exact ⟨rfl, rfl⟩
  · have h1eq := process_images_ne root now1 force1 fn1 items db0 hne
    set s1 := items.foldl (processItem root now1 force1 fn1)
      { stats := { total := items.length, analyzed := 0, cached := 0,
                   errors := 0, deleted := 0 },
        db := db0, seen := [] } with hs1
    have hdb1 : (process_images root now1 force1 fn1 items db0).2
        = (delete_missing_files s1.db root s1.seen).2 := by
      rw [h1eq]
    have hseen1 : s1.seen = items.map (fun it => it.rel_path) := by
      rw [hs1, foldl_seen]
      rfl
    have hmatch : ∀ it ∈ items, ∃ sz mt : ℤ, it.stat = some (sz, mt) ∧
        (get_cached_analysis (process_images root now1 force1 fn1 items db0).2
          root it.rel_path sz mt).isSome = true := by
      intro it hit
      obtain ⟨⟨sz, mt⟩, hstat⟩ := Option.isSome_iff_exists.mp (hok it hit).1
      refine ⟨sz, mt, hstat, ?_⟩
      rw [hdb1]
      apply (get_cached_isSome_iff _ _ _ _ _).mpr
      have hm := fold_establishes root now1 force1 fn1 items
        { stats := { total := items.length, analyzed := 0, cached := 0,
                     errors := 0, deleted := 0 },
          db := db0, seen := [] } hWF hok hnd it hit sz mt hstat
      rw [← hs1] at hm
      obtain ⟨r, hr, e1, e2, e3, e4⟩ := hm
      refine ⟨r, ?_, e1, e2, e3, e4⟩
      rw [delete_mem_iff]
      exact ⟨hr, Or.inr (by rw [e2, hseen1]; exact List.mem_map_of_mem _ hit)⟩
    have h2eq := process_images_ne root now2 false fn2 items
      (process_images root now1 force1 fn1 items db0).2 hne
    rw [h2eq]
    dsimp only
    set s2 := items.foldl (processItem root now2 false fn2)
      { stats := { total := items.length, analyzed := 0, cached := 0,
                   errors := 0, deleted := 0 },
        db := (process_images root now1 force1 fn1 items db0).2, seen := [] } with hs2
    have hall := fold_all_cached root now2 fn2 items
      { stats := { total := items.length, analyzed := 0, cached := 0,
                   errors := 0, deleted := 0 },
        db := (process_images root now1 force1 fn1 items db0).2, seen := [] } hmatch
    rw [← hs2] at hall
    obtain ⟨hdb, hana, hcach, htot⟩ := hall
    constructor
    · exact hana
    · show s2.stats.cached = s2.stats.total
      rw [hcach, htot]
      show 0 + items.length = items.length
      omega

/-- Counterexample to C2 as stated: a directory whose single image is
undecodable is unchanged between two runs, yet the second run has
`cached == 0` while `total == 1` (the corrupt file is never cached and is
re-counted as an error each run). -/
theorem C2_counterexample :
    (process_images "/r" "t2" false exSqrt [exItemBad]
        (process_images "/r" "t1" false exSqrt [exItemBad] ⟨[], 0⟩).2).1.analyzed = 0
    ∧ (process_images "/r" "t2" false exSqrt [exItemBad]
        (process_images "/r" "t1" false exSqrt [exItemBad] ⟨[], 0⟩).2).1.cached = 0
    ∧ (process_images "/r" "t2" false exSqrt [exItemBad]
        (process_images "/r" "t1" false exSqrt [exItemBad] ⟨[], 0⟩).2).1.total = 1
    ∧ ¬ ((process_images "/r" "t2" false exSqrt [exItemBad]
          (process_images "/r" "t1" false exSqrt [exItemBad] ⟨[], 0⟩).2).1.cached =
        (process_images "/r" "t2" false exSqrt [exItemBad]
          (process_images "/r" "t1" false exSqrt [exItemBad] ⟨[], 0⟩).2).1.total) := by
  refine ⟨rfl, rfl, rfl, ?_⟩
  decide

/-- Witness for C2 (amended) at a concrete one-image scan. -/
theorem C2_idempotent_rerun_witness :
    (process_images "/r" "t2" false exSqrt [exItemGood]
        (process_images "/r" "t1" false exSqrt [exItemGood] ⟨[], 0⟩).2).1.analyzed = 0
    ∧ (process_images "/r" "t2" false exSqrt [exItemGood]
        (process_images "/r" "t1" false exSqrt [exItemGood] ⟨[], 0⟩).2).1.cached =
      (process_images "/r" "t2" false exSqrt [exItemGood]
        (process_images "/r" "t1" false exSqrt [exItemGood] ⟨[], 0⟩).2).1.total :=
  C2_idempotent_rerun "/r" "t1" "t2" false exSqrt exSqrt [exItemGood] ⟨[], 0⟩
    ⟨by decide, by decide⟩ (by decide) (by decide)

/-! ## C10: the seen set shields scanned paths from reconciliation -/

/-- C10: every scanned entry's relative path joins the seen set before stat
or analysis is attempted, so reconciliation never deletes a stored record
whose path appeared in the scan — and an existing record for a file whose
image has become undecodable this run survives entirely unchanged. The `WF`
hypothesis is the primary-key well-formedness SQLite guarantees. -/
theorem C10_seen_paths_never_reconciled :
    ∀ (root now : String) (force : Bool) (fn : ℚ → ℚ) (items : List ScanItem)
      (db0 : DB) (r : Row),
      WF db0 → r ∈ db0.rows → r.root = root →
      r.path ∈ items.map (fun it => it.rel_path) →
      (∃ r' ∈ (process_images root now force fn items db0).2.rows,
          r'.root = root ∧ r'.path = r.path)
      ∧ ((∀ it ∈ items, it.rel_path = r.path → it.img = none) →
          r ∈ (process_images root now force fn items db0).2.rows) := by
  intro root now force fn items db0 r hWF hr hroot hpmem
  have hne : items ≠ [] := by
    intro h
    rw [h] at hpmem
    simp at hpmem
  rw [process_images_ne root now force fn items db0 hne]
  dsimp only
  set s1 := items.foldl (processItem root now force fn)
    { stats := { total := items.length, analyzed := 0, cached := 0,
                 errors := 0, deleted := 0 },
      db := db0, seen := [] } with hs1
  have hseen : s1.seen = items.map (fun it => it.rel_path) := by
    rw [hs1, foldl_seen]
    rfl
  constructor
  · have hk := fold_keeps_key root now force fn items
      { stats := { total := items.length, analyzed := 0, cached := 0,
                   errors := 0, deleted := 0 },
        db := db0, seen := [] } r hr
    rw [← hs1] at hk
    obtain ⟨r', hr', e1, e2⟩ := hk
    refine ⟨r', ?_, by rw [e1]; exact hroot, e2⟩
    rw [delete_mem_iff]
    refine ⟨hr', Or.inr ?_⟩
    rw [e2, hseen]
    exact hpmem
  · intro hcond
    have hfold := fold_untouched root now force fn items
      { stats := { total := items.length, analyzed := 0, cached := 0,
                   errors := 0, deleted := 0 },
        db := db0, seen := [] } r hWF hr hcond
    rw [← hs1] at hfold
    rw [delete_mem_iff]
    exact ⟨hfold, Or.inr (by rw [hseen]; exact hpmem)⟩

/-- Witness for C10: a stale record for a now-undecodable file survives the
run. -/
theorem C10_seen_paths_witness :
    (∃ r' ∈ (process_images "/r" "t1" false exSqrt [exItemStale] exDB).2.rows,
        r'.root = "/r" ∧ r'.path = exRow.path)
    ∧ exRow ∈ (process_images "/r" "t1" false exSqrt [exItemStale] exDB).2.rows := by
  have h := C10_seen_paths_never_reconciled "/r" "t1" false exSqrt [exItemStale] exDB exRow
    ⟨by decide, by decide⟩ (by decide) (by decide) (by decide)
  exact ⟨h.1, h.2 (by decide)⟩

/-! ## C1: deletion reconciliation -/

/-- C1 (amended): reconcile deletes exactly the stored records for the root
whose relative path is absent from the seen set of the just-completed scan;
and removing one previously-analyzed file yields `deleted == 1` — with the
removed path gone from `list_by_root` — provided the re-run still scans at
least one file (a zero-file scan early-returns without reconciling). -/
theorem C1_deletion_reconciliation :
    (∀ (db : DB) (root : String) (seen : List String) (r : Row),
        r ∈ (delete_missing_files db root seen).2.rows ↔
          r ∈ db.rows ∧ (r.root ≠ root ∨ r.path ∈ seen))
    ∧ ∀ (root now p : String) (force : Bool) (fn : ℚ → ℚ)
        (items : List ScanItem) (db0 : DB),
        items ≠ [] →
        p ∉ items.map (fun it => it.rel_path) →
        (∀ r ∈ db0.rows, r.root = root →
          r.path = p ∨ r.path ∈ items.map (fun it => it.rel_path)) →
        (∃ r ∈ db0.rows, r.root = root ∧ r.path = p) →
        (process_images root now force fn items db0).1.deleted = 1
        ∧ ∀ r ∈ get_all_analyses_for_root
            (process_images root now force fn items db0).2 root, r.path ≠ p := by
  constructor
  · exact fun db root seen r => delete_mem_iff db root seen r
  · intro root now p force fn items db0 hne hp hcover hex
    rw [process_images_ne root now force fn items db0 hne]
    dsimp only
    set s1 := items.foldl (processItem root now force fn)
      { stats := { total := items.length, analyzed := 0, cached := 0,
                   errors := 0, deleted := 0 },
        db := db0, seen := [] } with hs1
    have hseen : s1.seen = items.map (fun it => it.rel_path) := by
      rw [hs1, foldl_seen]
      rfl
    have hiff : ∀ q, q ∈ pathsToDelete s1.db root s1.seen ↔ q = p := by
      intro q
      rw [mem_pathsToDelete, hseen]
      constructor
      · rintro ⟨⟨r', hr', e1, e2⟩, hnot⟩
        rw [hs1] at hr'
        rcases fold_rows_src root now force fn items _ r' hr' with ⟨r0, hr0, f1, f2⟩ | ⟨g1, g2⟩
        · have hr0root : r0.root = root := by rw [f1, e1]
          rcases hcover r0 hr0 hr0root with hpp | hrel
          · rw [← e2, ← f2]
            exact hpp
          · exfalso
            apply hnot
            rw [← e2, ← f2]
            exact hrel
        · exfalso
          apply hnot
          rw [← e2]
          exact g2
      · rintro rfl
        refine ⟨?_, hp⟩
        obtain ⟨r0, hr0, e1, e2⟩ := hex
        have hk := fold_keeps_key root now force fn items
          { stats := { total := items.length, analyzed := 0, cached := 0,
                       errors := 0, deleted := 0 },
            db := db0, seen := [] } r0 hr0
        rw [← hs1] at hk
        obtain ⟨r', hr', f1, f2⟩ := hk
        exact ⟨r', hr', by rw [f1]; exact e1, by rw [f2]; exact e2⟩
    constructor
    · show (delete_missing_files s1.db root s1.seen).1 = 1
      rw [delete_count]
      exact length_eq_one_of_nodup _ p (nodup_pathsToDelete _ _ _) hiff
    · intro r hrl
      unfold get_all_analyses_for_root at hrl
      rw [(List.mergeSort_perm _ _).mem_iff] at hrl
      obtain ⟨hmem, hroot⟩ := List.mem_filter.mp hrl
      intro hpath
      rw [delete_mem_iff] at hmem
      rcases hmem.2 with hne' | hseenmem
      · exact hne' (by rwa [beq_iff_eq] at hroot)
      · rw [hseen, hpath] at hseenmem
        exact hp hseenmem

/-- Counterexample to C1 as stated: a root whose single previously-analyzed
file is removed leaves a zero-file scan, so the run returns the zero-work
result with `deleted == 0` and `list_by_root` still returns the path. -/
theorem C1_single_file_counterexample :
    (process_images "/r" "t1" false exSqrt [] exDB).1.deleted = 0
    ∧ ∃ r ∈ get_all_analyses_for_root
        (process_images "/r" "t1" false exSqrt [] exDB).2 "/r", r.path = "a.jpg" := by
  refine ⟨rfl, exRow, ?_, rfl⟩
  show exRow ∈ get_all_analyses_for_root exDB "/r"
  unfold get_all_analyses_for_root
  rw [(List.mergeSort_perm _ _).mem_iff]
  decide

/-- Witness for C1 (amended): two previously-analyzed files, one removed,
one still scanned. -/
theorem C1_deletion_witness :
    (process_images "/r" "t1" false exSqrt [exItemGood] exDB2).1.deleted = 1
    ∧ ∀ r ∈ get_all_analyses_for_root
        (process_images "/r" "t1" false exSqrt [exItemGood] exDB2).2 "/r",
        r.path ≠ "p.jpg" :=
  C1_deletion_reconciliation.2 "/r" "t1" "p.jpg" false exSqrt [exItemGood] exDB2
    (by decide) (by decide) (by decide) ⟨exRowP, by decide⟩
